import Mathlib

/-!
Verification of `log4j_finder.py` (repository `keuin/log4j-jndi-finder`).

The development shallowly embeds the two parts of the single source file:

* `RemovableZipfile` (`remove` / `_remove_member`): in-place removal of one
  member from an open ZIP archive, shifting every later entry down and
  patching the recorded offsets and the central-directory start.
* `find_log4j`: the scanner/orchestrator that walks a directory tree, probes
  `.jar` files, reports vulnerable entry names and (in removal mode) invokes
  the remover.

Modelling conventions:

* The underlying archive byte stream (`self.zf.fp`) is a total function
  `Nat → Nat` from absolute byte positions to byte values; `fp.seek`/`read`/
  `write` become reads of, and functional updates to, this function.  The
  read/write cursor is tracked in a separate `cursor` field.
* `ZipInfo` records are `Entry` values carrying the two fields the code
  uses: `filename` and `header_offset`.  Python compares `ZipInfo` objects
  by identity; we use structural equality, which agrees with identity on
  archives whose entries are pairwise distinct records (in particular on
  any archive with distinct header offsets).
* Offsets and sizes are `Nat`.  Python's integers are signed, but every
  subtraction performed by the code is non-negative on the structurally
  valid archives all theorems quantify over, so truncated subtraction
  agrees with the source there.
* `self.zf.filelist` is kept as a `List Entry`.  CPython's `ZipFile` keeps
  it in central-directory order and `_remove_member` mutates the very same
  objects it sorted; our embedding returns the updated records in
  sorted-by-offset order (the order the loop processes them in), which
  represents the same archive: no behaviour of the code depends on the
  directory order, and `_remove_member` itself re-sorts before reading it.
* `NameToInfo` is not stored separately: lookups (`getinfo`) search
  `filelist` by name, which coincides with the dict for archives whose
  entry names are distinct (`del NameToInfo[...]` then always succeeds and
  is subsumed by removing the entry from `filelist`).
* Python exceptions become an `Except` whose error value also carries the
  `ZipState` at the moment the exception is raised, so that claims about
  the observable state "at raise time" are statable.
-/

/-- One `ZipInfo` record: the two attributes `_remove_member` reads. -/
structure Entry where
  filename : String
  header_offset : Nat
deriving DecidableEq, Repr

/-- The mutable state of an open `zipfile.ZipFile` as used by the code:
byte stream `fp`, entry list `filelist`, central-directory start
`start_dir`, open mode, whether `fp` is still open (`self.zf.fp` truthy),
whether a writing handle is active (`self.zf._writing`), the `_didModify`
flag and the stream cursor. -/
structure ZipState where
  fp : Nat → Nat
  filelist : List Entry
  start_dir : Nat
  mode : String
  fpOpen : Bool
  writing : Bool
  didModify : Bool
  cursor : Nat

/-- The Python exceptions the two removal routines can raise. -/
inductive PyErr where
  | runtimeError        -- `RuntimeError("remove() requires mode 'a'")`
  | valueErrorClosed    -- `ValueError("... already closed")`
  | valueErrorWriting   -- `ValueError("... open writing handle exists")`
  | valueErrorNotInList -- `ValueError` from `filelist.remove(member)`
  | keyError            -- `KeyError` from `self.zf.getinfo(member)`
deriving DecidableEq, Repr

/-- The spec's `NotFoundError` taxonomy bucket: the exception raised when
the target is absent from the archive's current index. -/
def PyErr.isNotFoundError : PyErr → Bool
  | .keyError => true
  | .valueErrorNotInList => true
  | _ => false

/-- The argument of `remove`: either an entry name or a `ZipInfo` record. -/
inductive Member where
  | name (s : String)
  | info (e : Entry)

/-- `fp.seek(off); fp.write(data)` for a span of `len` bytes whose `j`-th
byte is `data j`: a functional update of the byte stream. -/
def writeBytes (g : Nat → Nat) (off len : Nat) (data : Nat → Nat) : Nat → Nat :=
  fun i => if off ≤ i ∧ i < off + len then data (i - off) else g i

/-- `filelist[i + 1].header_offset` when `rest` is the tail after position
`i`, and `self.zf.start_dir` when `i == len(filelist) - 1` (`rest = []`). -/
def nextOffset (rest : List Entry) (d : Nat) : Nat :=
  match rest with
  | [] => d
  | e :: _ => e.header_offset

namespace RemovableZipfile

/-- The `for i in range(len(filelist))` loop of `_remove_member`, walking the
offset-sorted entry list.  Arguments: the target `member`, the (fixed during
the loop) `self.zf.start_dir` value `d`, the current byte stream `g`, the
running `entry_offset` `eo`, and the remaining entries.  Returns the final
byte stream, the updated entry records (in processing order) and the final
`entry_offset`. -/
def loop (member : Entry) (d : Nat) :
    (Nat → Nat) → Nat → List Entry → (Nat → Nat) × List Entry × Nat
  | g, eo, [] => (g, [], eo)
  | g, eo, info :: rest =>
    -- `if info.header_offset < member.header_offset: continue`
    if info.header_offset < member.header_offset then
      let r := loop member d g eo rest
      (r.1, info :: r.2.1, r.2.2)
    else
      -- total size of the entry: next header offset (or `start_dir`) minus
      -- this entry's header offset
      let entry_size := nextOffset rest d - info.header_offset
      -- `if member == info: entry_offset = entry_size; continue`
      if info = member then
        let r := loop member d g entry_size rest
        (r.1, info :: r.2.1, r.2.2)
      else
        -- read the raw span, shift the recorded offset, write the span back
        let data := fun j => g (info.header_offset + j)
        let newInfo : Entry := { info with header_offset := info.header_offset - eo }
        let g2 := writeBytes g newInfo.header_offset entry_size data
        let r := loop member d g2 eo rest
        (r.1, newInfo :: r.2.1, r.2.2)

/-- `RemovableZipfile._remove_member(self, member)`.  The error value of the
`Except` carries the container state at the moment `filelist.remove(member)`
raises `ValueError` (all loop writes and the `start_dir` update have already
happened by then). -/
def _remove_member (z : ZipState) (member : Entry) : Except (PyErr × ZipState) ZipState :=
  -- `filelist = sorted(self.zf.filelist, key=attrgetter('header_offset'))`
  -- (Python's `sorted` is a stable sort; so is insertion sort.)
  let sortedList := List.insertionSort (fun a b => a.header_offset ≤ b.header_offset) z.filelist
  let r := loop member z.start_dir z.fp 0 sortedList
  -- `self.zf.start_dir -= entry_offset` (filelist records were mutated in
  -- place by the loop)
  let z1 : ZipState := { z with fp := r.1, filelist := r.2.1, start_dir := z.start_dir - r.2.2 }
  -- `self.zf.filelist.remove(member)`: raises `ValueError` when `member`
  -- (compared by object identity, stable under the in-place mutation) is
  -- not an element of the list
  if member ∈ z.filelist then
    .ok { z1 with
            filelist := z1.filelist.erase member,
            -- `del self.zf.NameToInfo[member.filename]` is subsumed by the
            -- erasure (lookups are derived from `filelist`)
            didModify := true,       -- `self.zf._didModify = True`
            cursor := z1.start_dir } -- `fp.seek(self.zf.start_dir)`
  else
    .error (.valueErrorNotInList, z1)

/-- `self.zf.getinfo(member)`: name lookup in the archive index. -/
def getinfo (z : ZipState) (name : String) : Option Entry :=
  z.filelist.find? (fun e => e.filename == name)

/-- `RemovableZipfile.remove(self, member)`. -/
def remove (z : ZipState) (member : Member) : Except (PyErr × ZipState) ZipState :=
  if z.mode ≠ "a" then .error (.runtimeError, z)
  else if !z.fpOpen then .error (.valueErrorClosed, z)
  else if z.writing then .error (.valueErrorWriting, z)
  else
    match member with
    | .name s =>
      match getinfo z s with
      | none => .error (.keyError, z)
      | some zinfo => _remove_member z zinfo
    | .info e => _remove_member z e

end RemovableZipfile

/-! ## The scanner (`find_log4j`) -/

/-- Python `pat in s` (substring containment). -/
def containsSub (s pat : String) : Bool :=
  s.toList.tails.any (fun t => pat.toList.isPrefixOf t)

/-- Python `s.lower()` (ASCII inputs, as in this program). -/
def lowerStr (s : String) : String :=
  String.mk (s.toList.map Char.toLower)

/-- Python `s.endswith(post)`. -/
def endsWithStr (s post : String) : Bool :=
  post.toList.isSuffixOf s.toList

/-- `keywords = [x.lower() for x in ['JndiLookup']]`. -/
def keywords : List String := ["JndiLookup"].map lowerStr

/-- What the scanner observes about one regular file: the result of the
`zipfile.is_zipfile` magic probe, and (when it is an archive) the entry
names of `zf.infolist()` in directory order. -/
structure FileData where
  isZip : Bool
  entries : List String
deriving DecidableEq, Repr

/-- A filesystem subtree: regular files with their observable data, and
directories with children in `os.listdir` order. -/
inductive FSTree where
  | file (name : String) (data : FileData)
  | dir (name : String) (children : List FSTree)

/-- The regular files among a directory's children, in listing order. -/
def filesOf : List FSTree → List (String × FileData)
  | [] => []
  | .file n d :: rest => (n, d) :: filesOf rest
  | .dir _ _ :: rest => filesOf rest

/-- The subdirectories among a directory's children, in listing order. -/
def dirsOf : List FSTree → List (String × List FSTree)
  | [] => []
  | .file _ _ :: rest => dirsOf rest
  | .dir n cs :: rest => (n, cs) :: dirsOf rest

/-- `os.walk(path)` flattened to `(fpath, fname, data)` triples in the order
the `for root, dirs, files in os.walk(path): for file in files` nest visits
them (top-down: a directory's own files first, then each subdirectory).
`fuel` bounds the recursion depth; any `fuel` at least the tree height gives
the full walk. -/
def walkDir : Nat → String → List FSTree → List (String × String × FileData)
  | 0, _, _ => []
  | fuel + 1, p, children =>
    (filesOf children).map (fun fd => (p ++ "/" ++ fd.1, fd.1, fd.2))
      ++ (dirsOf children).flatMap (fun dc => walkDir fuel (p ++ "/" ++ dc.1) dc.2)

/-- The removal loop `for info in zf.infolist(): ...` of `find_log4j`.  It
iterates by index over the *live* `filelist`, which `rz.remove(info)`
shortens in place, so a successful removal makes the loop skip the element
that slid into the removed slot.  `confirm p n` is the user's answer to the
`input(...)` prompt for entry `n` of archive `p`.  `fuel` bounds the number
of iterations; the initial call passes the list length, which suffices
because every iteration increases the index by one and `i` is checked
against the current length. -/
def remLoop (confirm_before_removing : Bool) (confirm : String → String → Bool)
    (path : String) : Nat → List String → Nat → List (String × String)
  | 0, _, _ => []
  | fuel + 1, l, i =>
    if h : i < l.length then
      let n := l.get ⟨i, h⟩
      -- `for kw in keywords: if kw in info.filename.lower(): ...; break`
      if keywords.any (fun kw => containsSub (lowerStr n) kw) then
        let really_remove := if confirm_before_removing then confirm path n else true
        if really_remove then
          (path, n) :: remLoop confirm_before_removing confirm path fuel (l.eraseIdx i) (i + 1)
        else
          remLoop confirm_before_removing confirm path fuel l (i + 1)
      else
        remLoop confirm_before_removing confirm path fuel l (i + 1)
    else []

/-- The single-file branch of `find_log4j` (the `else:` of `os.path.isdir`).
Returns the findings yielded and the `(path, entryName)` pairs actually
passed to `rz.remove`. -/
def scanFile (path : String) (d : FileData)
    (ignore_case scan_only confirm_before_removing : Bool)
    (confirm : String → String → Bool) : List String × List (String × String) :=
  -- `if not path.endswith('.jar') or (ignore_case and path.lower().endswith('.jar')): return`
  if !(endsWithStr path ".jar") || (ignore_case && endsWithStr (lowerStr path) ".jar") then
    ([], [])
  -- `if not zipfile.is_zipfile(path): print('[WARN] ...'); return`
  else if !d.isZip then
    ([], [])
  else
    -- first pass: `for info in zf.infolist(): for kw in keywords: if kw in
    -- info.filename.lower(): is_vulnerable = True; yield f'{path}:{info.filename}'`
    let findings := d.entries.flatMap (fun n =>
      keywords.filterMap (fun kw =>
        if containsSub (lowerStr n) kw then some (path ++ ":" ++ n) else none))
    let is_vulnerable := d.entries.any (fun n =>
      keywords.any (fun kw => containsSub (lowerStr n) kw))
    -- `if is_vulnerable and not scan_only:` second pass over a fresh
    -- `ZipFile(path, 'a')` with the same entries
    let removals :=
      if is_vulnerable && !scan_only then
        remLoop confirm_before_removing confirm path d.entries.length d.entries 0
      else []
    (findings, removals)

/-- `find_log4j(path, ignore_case, scan_only, confirm_before_removing)`,
returning the stream of yielded findings and the list of removals handed to
the Member Remover.  In the directory branch each walked file first yields
its bare `fpath` for every (case-sensitively) matching keyword in its raw
name, then the code does `yield from find_log4j(fpath)` — with *default*
arguments, i.e. `ignore_case=False, scan_only=True,
confirm_before_removing=True`. -/
def find_log4j (fuel : Nat) (t : FSTree) (path : String)
    (ignore_case scan_only confirm_before_removing : Bool)
    (confirm : String → String → Bool) : List String × List (String × String) :=
  match t with
  | .dir _ children =>
    let items := walkDir fuel path children
    (items.flatMap (fun it =>
        keywords.filterMap (fun kw => if containsSub it.2.1 kw then some it.1 else none)
          ++ (scanFile it.1 it.2.2 false true true confirm).1),
     items.flatMap (fun it => (scanFile it.1 it.2.2 false true true confirm).2))
  | .file _ d => scanFile path d ignore_case scan_only confirm_before_removing confirm

/-! ## Structural predicates about archives -/

/-- The data-model invariant of the spec's Container: the entry list is
sorted by strictly ascending header offset and every header lies before the
central directory. -/
def ValidZip (z : ZipState) : Prop :=
  List.Chain' (fun a b => a.header_offset < b.header_offset) z.filelist ∧
    ∀ e ∈ z.filelist, e.header_offset < z.start_dir

/-- Entry names are pairwise distinct (the spec's `name` uniqueness). -/
def NodupNames (z : ZipState) : Prop :=
  (z.filelist.map Entry.filename).Nodup

instance (z : ZipState) : Decidable (NodupNames z) :=
  inferInstanceAs (Decidable ((z.filelist.map Entry.filename).Nodup))

/-- The derived `rawSize` of every entry of an offset-sorted list: the
difference to the next entry's header offset, `dirStart` minus the offset
for the last entry. -/
def sizesOf : List Entry → Nat → List Nat
  | [], _ => []
  | e :: rest, d => (nextOffset rest d - e.header_offset) :: sizesOf rest d

/-- `rawSize` of one entry `e` of list `l`: distance from `e.header_offset`
to the first header offset beyond it (or to `dirStart`). On a sorted list
this is the derived size used by `_remove_member`. -/
def sizeIn (l : List Entry) (d : Nat) (e : Entry) : Nat :=
  (match l.find? (fun x => e.header_offset < x.header_offset) with
   | some x => x.header_offset
   | none => d) - e.header_offset

/-- `tile b pairs d`: the entries, each paired with a byte size, exactly
tile the region from `b` to `d` — each header starts where the previous
entry's span ended, and the last span ends at `d`. -/
def tile : Nat → List (Entry × Nat) → Nat → Bool
  | b, [], d => b == d
  | b, (e, s) :: rest, d => (e.header_offset == b) && tile (b + s) rest d


/-! ## Helper lemmas about the removal loop -/

instance : IsTrans Entry (fun a b => a.header_offset < b.header_offset) :=
  ⟨fun _ _ _ h1 h2 => Nat.lt_trans h1 h2⟩

/-- The offsets of `S` form a contiguous chain from `b` (the offset of the
head of `S`, or `d` when `S` is empty) up to `d`, with the derived sizes. -/
def offsChain : Nat → List Entry → Nat → Prop
  | b, [], d => b = d
  | b, e :: rest, d =>
    e.header_offset = b ∧ b ≤ nextOffset rest d ∧ offsChain (nextOffset rest d) rest d

theorem offsChain_le {d : Nat} : ∀ {S : List Entry} {b : Nat}, offsChain b S d → b ≤ d
  | [], _, h => Nat.le_of_eq h
  | _ :: _, _, h => Nat.le_trans h.2.1 (offsChain_le h.2.2)

theorem offsChain_of_pairwise {d : Nat} :
    ∀ {S : List Entry},
      List.Pairwise (fun a b => a.header_offset < b.header_offset) S →
      (∀ e ∈ S, e.header_offset ≤ d) → offsChain (nextOffset S d) S d := by
  intro S
  induction S with
  | nil => intro _ _; simp [offsChain, nextOffset]
  | cons e rest ih =>
    intro hpw hbd
    rcases List.pairwise_cons.mp hpw with ⟨hhead, htail⟩
    refine ⟨rfl, ?_, ih htail (fun x hx => hbd x (List.mem_cons_of_mem _ hx))⟩
    cases rest with
    | nil => exact hbd e (List.mem_cons_self _ _)
    | cons f _ => exact Nat.le_of_lt (hhead f (List.mem_cons_self _ _))

theorem writeBytes_shift {g : Nat → Nat} {b b' sz : Nat} (h1 : sz ≤ b) (h2 : b ≤ b') :
    ∀ x, writeBytes g (b - sz) (b' - b) (fun j => g (b + j)) x =
      if b - sz ≤ x ∧ x < b' - sz then g (x + sz) else g x := by
  intro x
  unfold writeBytes
  rw [show b - sz + (b' - b) = b' - sz by omega]
  by_cases hc : b - sz ≤ x ∧ x < b' - sz
  · rw [if_pos hc, if_pos hc]
    exact congrArg g (by omega)
  · rw [if_neg hc, if_neg hc]

/-- Processing the entries strictly after the target: every one is moved
down by `sz`, and the byte stream gets the left-to-right compaction. -/
theorem loop_shift (member : Entry) (d sz : Nat) :
    ∀ (S : List Entry) (g : Nat → Nat) (b : Nat),
      offsChain b S d → sz ≤ b → member.header_offset < b →
      ∃ g', RemovableZipfile.loop member d g sz S
          = (g', S.map (fun e => { e with header_offset := e.header_offset - sz }), sz)
        ∧ ∀ i, g' i = if b - sz ≤ i ∧ i < d - sz then g (i + sz) else g i := by
  intro S
  induction S with
  | nil =>
    intro g b hch hsz hm
    refine ⟨g, rfl, fun i => ?_⟩
    have hbd : b = d := hch
    rw [if_neg (by omega)]
  | cons e rest ih =>
    intro g b hch hsz hm
    obtain ⟨he, hb', hch'⟩ := hch
    subst he
    have hb'd : nextOffset rest d ≤ d := offsChain_le hch'
    have hnotlt : ¬ e.header_offset < member.header_offset := by omega
    have hne : ¬ e = member := by
      intro hcontra
      subst hcontra
      omega
    obtain ⟨g'', hloop, hpt⟩ :=
      ih (writeBytes g (e.header_offset - sz) (nextOffset rest d - e.header_offset)
            (fun j => g (e.header_offset + j)))
        (nextOffset rest d) hch' (Nat.le_trans hsz hb') (Nat.lt_of_lt_of_le hm hb')
    refine ⟨g'', ?_, ?_⟩
    · show RemovableZipfile.loop member d g sz (e :: rest) = _
      rw [RemovableZipfile.loop, if_neg hnotlt, if_neg hne]
      simp only [hloop]
      rfl
    · intro i
      have hw := writeBytes_shift (g := g) hsz hb'
      rw [hpt i]
      by_cases h1 : nextOffset rest d - sz ≤ i ∧ i < d - sz
      · rw [if_pos h1, hw (i + sz), if_neg (by omega), if_pos (by omega)]
      · rw [if_neg h1, hw i]
        by_cases h2 : e.header_offset - sz ≤ i ∧ i < nextOffset rest d - sz
        · rw [if_pos h2, if_pos (by omega)]
        · rw [if_neg h2, if_neg (by omega)]

/-- Entries strictly before the target's offset are skipped unchanged. -/
theorem loop_skip (member : Entry) (d eo : Nat) :
    ∀ (P rest : List Entry) (g : Nat → Nat),
      (∀ p ∈ P, p.header_offset < member.header_offset) →
      RemovableZipfile.loop member d g eo (P ++ rest)
        = ((RemovableZipfile.loop member d g eo rest).1,
           P ++ (RemovableZipfile.loop member d g eo rest).2.1,
           (RemovableZipfile.loop member d g eo rest).2.2) := by
  intro P
  induction P with
  | nil => intro rest g _; rfl
  | cons p P' ih =>
    intro rest g hP
    have hp : p.header_offset < member.header_offset := hP p (List.mem_cons_self _ _)
    show RemovableZipfile.loop member d g eo (p :: (P' ++ rest)) = _
    rw [RemovableZipfile.loop, if_pos hp, ih rest g (fun q hq => hP q (List.mem_cons_of_mem _ hq))]
    rfl

/-- How `_remove_member` updates the record of an entry that lies after the
removed member: its header offset drops by the member's raw size. -/
def shiftEntry (sz : Nat) (e : Entry) : Entry :=
  { e with header_offset := e.header_offset - sz }

/-- Master characterization of a successful `_remove_member` on a valid
archive, with the entry list split as `P ++ m :: S` around the target:
the survivors are `P` unchanged and `S` shifted down by `m`'s raw size
`sz = nextOffset S start_dir - m.header_offset`; `start_dir` drops by `sz`;
and the byte stream is the left-to-right compaction that copies the span
`[m.header_offset + sz, start_dir)` down onto `[m.header_offset,
start_dir - sz)` and leaves all other bytes untouched. -/
theorem remove_member_char (z : ZipState) (m : Entry) (P S : List Entry)
    (hsplit : z.filelist = P ++ m :: S)
    (hsorted : List.Chain' (fun a b => a.header_offset < b.header_offset) z.filelist)
    (hbound : ∀ e ∈ z.filelist, e.header_offset < z.start_dir) :
    ∃ g', RemovableZipfile._remove_member z m = .ok
        { fp := g',
          filelist := P ++ S.map (shiftEntry (nextOffset S z.start_dir - m.header_offset)),
          start_dir := z.start_dir - (nextOffset S z.start_dir - m.header_offset),
          mode := z.mode, fpOpen := z.fpOpen, writing := z.writing,
          didModify := true,
          cursor := z.start_dir - (nextOffset S z.start_dir - m.header_offset) } ∧
      ∀ i, g' i =
        if m.header_offset ≤ i ∧ i < z.start_dir - (nextOffset S z.start_dir - m.header_offset)
        then z.fp (i + (nextOffset S z.start_dir - m.header_offset)) else z.fp i := by
  have hpw : List.Pairwise (fun a b => a.header_offset < b.header_offset) z.filelist :=
    List.chain'_iff_pairwise.mp hsorted
  have hpw' := hpw
  rw [hsplit] at hpw'
  rw [List.pairwise_append] at hpw'
  obtain ⟨hpwP, hpwMS, hcross⟩ := hpw'
  rw [List.pairwise_cons] at hpwMS
  obtain ⟨hSm, hpwS⟩ := hpwMS
  have hP : ∀ p ∈ P, p.header_offset < m.header_offset :=
    fun p hp => hcross p hp m (List.mem_cons_self _ _)
  have hmem : m ∈ z.filelist := by
    rw [hsplit]; exact List.mem_append_right _ (List.mem_cons_self _ _)
  have hmd : m.header_offset < z.start_dir := hbound m hmem
  have hSd : ∀ e ∈ S, e.header_offset ≤ z.start_dir := fun e he =>
    Nat.le_of_lt (hbound e (by
      rw [hsplit]
      exact List.mem_append_right _ (List.mem_cons_of_mem _ he)))
  have hch : offsChain (nextOffset S z.start_dir) S z.start_dir :=
    offsChain_of_pairwise hpwS hSd
  have hmb : m.header_offset < nextOffset S z.start_dir := by
    cases S with
    | nil => exact hmd
    | cons f _ => exact hSm f (List.mem_cons_self _ _)
  have hsortEq :
      List.insertionSort (fun a b => a.header_offset ≤ b.header_offset) z.filelist
        = z.filelist :=
    List.Sorted.insertionSort_eq (hpw.imp Nat.le_of_lt)
  obtain ⟨g', hloopS, hpt⟩ :=
    loop_shift m z.start_dir (nextOffset S z.start_dir - m.header_offset) S z.fp
      (nextOffset S z.start_dir) hch (by omega) hmb
  have hfull : RemovableZipfile.loop m z.start_dir z.fp 0 (P ++ m :: S)
      = (g', P ++ m :: S.map (shiftEntry (nextOffset S z.start_dir - m.header_offset)),
         nextOffset S z.start_dir - m.header_offset) := by
    rw [loop_skip m z.start_dir 0 P (m :: S) z.fp hP]
    rw [RemovableZipfile.loop, if_neg (Nat.lt_irrefl _), if_pos rfl]
    simp only [hloopS]
    rfl
  have hmP : m ∉ P := fun hm => absurd (hP m hm) (Nat.lt_irrefl _)
  have herase :
      (P ++ m :: S.map (shiftEntry (nextOffset S z.start_dir - m.header_offset))).erase m
        = P ++ S.map (shiftEntry (nextOffset S z.start_dir - m.header_offset)) := by
    rw [List.erase_append_right _ hmP, List.erase_cons_head]
  have hmem2 : m ∈ P ++ m :: S := List.mem_append_right _ (List.mem_cons_self _ _)
  refine ⟨g', ?_, ?_⟩
  · unfold RemovableZipfile._remove_member
    have hsortEq2 :
        List.insertionSort (fun a b => a.header_offset ≤ b.header_offset) (P ++ m :: S)
          = P ++ m :: S := hsplit ▸ hsortEq
    simp only [hsplit, hsortEq2, hfull, hmem2, if_true, herase]
  · intro i
    have hbsz : nextOffset S z.start_dir - (nextOffset S z.start_dir - m.header_offset)
        = m.header_offset := by omega
    rw [hpt i, hbsz]

/-- With the three state guards satisfied, `remove` on a `ZipInfo` record
goes straight to `_remove_member`. -/
theorem remove_info_eq (z : ZipState) (m : Entry) (hmode : z.mode = "a")
    (hfp : z.fpOpen = true) (hw : z.writing = false) :
    RemovableZipfile.remove z (.info m) = RemovableZipfile._remove_member z m := by
  unfold RemovableZipfile.remove
  simp [hmode, hfp, hw]

/-- With the guards satisfied and the name resolving to `m`, `remove` by
name goes to `_remove_member z m`. -/
theorem remove_name_eq (z : ZipState) (s : String) (m : Entry) (hmode : z.mode = "a")
    (hfp : z.fpOpen = true) (hw : z.writing = false)
    (hget : RemovableZipfile.getinfo z s = some m) :
    RemovableZipfile.remove z (.name s) = RemovableZipfile._remove_member z m := by
  unfold RemovableZipfile.remove
  simp [hmode, hfp, hw, hget]

/-- On a duplicate-free-name archive, looking up a member's own name finds
exactly that member. -/
theorem getinfo_of_mem :
    ∀ (l : List Entry) (m : Entry), (l.map Entry.filename).Nodup → m ∈ l →
      l.find? (fun e => e.filename == m.filename) = some m := by
  intro l
  induction l with
  | nil => intro m _ hm; cases hm
  | cons a l ih =>
    intro m hnd hm
    rw [List.map_cons, List.nodup_cons] at hnd
    rcases List.mem_cons.mp hm with h | h
    · subst h
      exact List.find?_cons_of_pos _ (by simp)
    · have hmm : m.filename ∈ l.map Entry.filename := List.mem_map_of_mem _ h
      have hne : (a.filename == m.filename) = false := by
        simp only [beq_eq_false_iff_ne, ne_eq]
        intro heq
        exact hnd.1 (by rw [heq]; exact hmm)
      simp only [List.find?_cons, hne]
      exact ih m hnd.2 h

/-- When the target is in none of the records, the loop is an observable
no-op: `entry_offset` stays `0`, every "relocation" rereads and rewrites
the same bytes at the same place, and every offset drops by `0`. -/
theorem loop_noop (member : Entry) (d : Nat) :
    ∀ (L : List Entry) (g : Nat → Nat), member ∉ L →
      RemovableZipfile.loop member d g 0 L = (g, L, 0) := by
  intro L
  induction L with
  | nil => intro g _; rfl
  | cons e rest ih =>
    intro g hmem
    have hne : ¬ e = member := fun h => hmem (h ▸ List.mem_cons_self _ _)
    have hnr : member ∉ rest := fun h => hmem (List.mem_cons_of_mem _ h)
    by_cases hlt : e.header_offset < member.header_offset
    · rw [RemovableZipfile.loop, if_pos hlt, ih g hnr]
    · rw [RemovableZipfile.loop, if_neg hlt, if_neg hne]
      have hg2 : writeBytes g e.header_offset (nextOffset rest d - e.header_offset)
          (fun j => g (e.header_offset + j)) = g := by
        funext i
        unfold writeBytes
        by_cases hc : e.header_offset ≤ i ∧
            i < e.header_offset + (nextOffset rest d - e.header_offset)
        · rw [if_pos hc]; exact congrArg g (by omega)
        · rw [if_neg hc]
      simp only [Nat.sub_zero, hg2, ih g hnr]

/-- `_remove_member` on a target record that is not in the (sorted) index
raises `ValueError` from `filelist.remove`, with the container state at the
raise point exactly as it was on entry. -/
theorem remove_member_absent (z : ZipState) (m : Entry)
    (hsorted : List.Chain' (fun a b => a.header_offset < b.header_offset) z.filelist)
    (hm : m ∉ z.filelist) :
    RemovableZipfile._remove_member z m = .error (.valueErrorNotInList, z) := by
  have hsortEq :
      List.insertionSort (fun a b => a.header_offset ≤ b.header_offset) z.filelist
        = z.filelist :=
    List.Sorted.insertionSort_eq ((List.chain'_iff_pairwise.mp hsorted).imp Nat.le_of_lt)
  unfold RemovableZipfile._remove_member
  simp only [hsortEq, loop_noop m z.start_dir z.filelist z.fp hm, hm, if_false,
    Nat.sub_zero]

/-- The lower bound every trailing entry satisfies: it starts at or after
the end of the removed member's raw span. -/
theorem S_off_lb (m : Entry) (S : List Entry) (d : Nat)
    (hSm : ∀ s ∈ S, m.header_offset < s.header_offset)
    (hpwS : List.Pairwise (fun a b => a.header_offset < b.header_offset) S) :
    ∀ s ∈ S, m.header_offset + (nextOffset S d - m.header_offset) ≤ s.header_offset := by
  cases S with
  | nil => intro s hs; cases hs
  | cons f rest =>
    intro s hs
    have hmf : m.header_offset < f.header_offset := hSm f (List.mem_cons_self _ _)
    have hnext : nextOffset (f :: rest) d = f.header_offset := rfl
    rcases List.mem_cons.mp hs with h | h
    · subst h; omega
    · have : f.header_offset < s.header_offset :=
        (List.pairwise_cons.mp hpwS).1 s h
      omega

/-- Sortedness and the in-bounds invariant survive the removal: the
survivors `P ++ S.map (shiftEntry sz)` are again strictly sorted and lie
below the new directory start. -/
theorem valid_shift (P S : List Entry) (m : Entry) (d : Nat)
    (hpw : List.Pairwise (fun a b => a.header_offset < b.header_offset) (P ++ m :: S))
    (hbound : ∀ e ∈ P ++ m :: S, e.header_offset < d) :
    List.Pairwise (fun a b => a.header_offset < b.header_offset)
        (P ++ S.map (shiftEntry (nextOffset S d - m.header_offset))) ∧
      ∀ e ∈ P ++ S.map (shiftEntry (nextOffset S d - m.header_offset)),
        e.header_offset < d - (nextOffset S d - m.header_offset) := by
  rw [List.pairwise_append] at hpw
  obtain ⟨hpwP, hpwMS, hcross⟩ := hpw
  rw [List.pairwise_cons] at hpwMS
  obtain ⟨hSm, hpwS⟩ := hpwMS
  have hP : ∀ p ∈ P, p.header_offset < m.header_offset :=
    fun p hp => hcross p hp m (List.mem_cons_self _ _)
  have hmd : m.header_offset < d :=
    hbound m (List.mem_append_right _ (List.mem_cons_self _ _))
  have hSd : ∀ s ∈ S, s.header_offset < d := fun s hs =>
    hbound s (List.mem_append_right _ (List.mem_cons_of_mem _ hs))
  have hlb := S_off_lb m S d hSm hpwS
  have hnd : nextOffset S d ≤ d := by
    cases S with
    | nil => exact Nat.le_refl _
    | cons f _ => exact Nat.le_of_lt (hSd f (List.mem_cons_self _ _))
  have hmb : m.header_offset ≤ nextOffset S d := by
    cases S with
    | nil => exact Nat.le_of_lt hmd
    | cons f _ => exact Nat.le_of_lt (hSm f (List.mem_cons_self _ _))
  constructor
  · rw [List.pairwise_append]
    refine ⟨hpwP, ?_, ?_⟩
    · rw [List.pairwise_map]
      refine hpwS.imp_of_mem ?_
      intro a b ha hb hab
      have := hlb a ha
      simp only [shiftEntry]
      omega
    · intro p hp b hb
      rw [List.mem_map] at hb
      obtain ⟨s, hs, rfl⟩ := hb
      have h1 := hP p hp
      have h2 := hlb s hs
      simp only [shiftEntry]
      omega
  · intro e he
    rcases List.mem_append.mp he with h | h
    · have h1 := hP e h
      omega
    · rw [List.mem_map] at h
      obtain ⟨s, hs, rfl⟩ := h
      have h1 := hlb s hs
      have h2 := hSd s hs
      simp only [shiftEntry]
      omega

/-- Executable strict sortedness by header offset (used to discharge the
`Chain\'` hypotheses of the claim theorems on concrete containers). -/
def sortedLtB : List Entry → Bool
  | [] => true
  | [_] => true
  | a :: b :: r => decide (a.header_offset < b.header_offset) && sortedLtB (b :: r)

theorem chain'_of_sortedLtB :
    ∀ {l : List Entry}, sortedLtB l = true →
      List.Chain' (fun a b => a.header_offset < b.header_offset) l
  | [], _ => List.chain'_nil
  | [_], _ => List.chain'_singleton _
  | a :: b :: r, h => by
    rw [sortedLtB, Bool.and_eq_true] at h
    exact List.chain'_cons.mpr ⟨of_decide_eq_true h.1, chain'_of_sortedLtB h.2⟩

/-! ## Claim theorems -/

/-- The concrete container of the spec's scenario: entries `a.txt`,
`JndiLookup.class`, `b.txt` at header offsets 0, 120, 190 and
`dirStart = 420`, opened in append mode. -/
def zScenario : ZipState :=
  { fp := fun _ => 0,
    filelist := [⟨"a.txt", 0⟩, ⟨"JndiLookup.class", 120⟩, ⟨"b.txt", 190⟩],
    start_dir := 420, mode := "a", fpOpen := true, writing := false,
    didModify := false, cursor := 0 }

/-- C2 (counterexample): in the scenario container, removing
`JndiLookup.class` sets the new `dirStart` to 350, not 370 as claimed: the
shift is the removed entry's full raw size `190 - 120 = 70` (the very shift
that moves `b.txt` from 190 to 120), and `420 - 70 = 350`. -/
theorem C2_counterexample :
    ((RemovableZipfile.remove zScenario (.info ⟨"JndiLookup.class", 120⟩)).toOption.map
        (fun s => s.start_dir)) = some 350 ∧ (350 : Nat) ≠ 370 := by
  constructor
  · decide
  · decide

/-- C2 (amended): in the scenario container, removing `JndiLookup.class`
shifts `b.txt`'s header offset from 190 to 120, leaves exactly the entries
`[a.txt, b.txt]`, and sets the new `dirStart` to `420 - 70 = 350` (the
shift being the removed entry's raw size 70, not its 50-byte payload). -/
theorem C2_scenario :
    ((RemovableZipfile.remove zScenario (.info ⟨"JndiLookup.class", 120⟩)).toOption.map
        (fun s => (s.filelist, s.start_dir))) =
      some ([⟨"a.txt", 0⟩, ⟨"b.txt", 120⟩], 350) := by
  decide

/-- The target of a `remove` call is absent from the container's index:
for a name, no entry carries it; for a `ZipInfo` record, it is not in
`filelist`. -/
def absentFrom (member : Member) (z : ZipState) : Prop :=
  match member with
  | .name s => ∀ e ∈ z.filelist, e.filename ≠ s
  | .info e => e ∉ z.filelist

instance (member : Member) (z : ZipState) : Decidable (absentFrom member z) :=
  match member with
  | .name s => inferInstanceAs (Decidable (∀ e ∈ z.filelist, e.filename ≠ s))
  | .info e => inferInstanceAs (Decidable (e ∉ z.filelist))

/-- C6: removing a target (name or record) that is absent from the
container's current index fails with a not-found error (`KeyError` from
`getinfo` for names, `ValueError` from `filelist.remove` for records), and
the container state at the raise point is exactly the pre-call state — the
removal is not performed. -/
theorem C6_absent_target_fails (z : ZipState) (member : Member)
    (hsorted : List.Chain' (fun a b => a.header_offset < b.header_offset) z.filelist)
    (hmode : z.mode = "a") (hfp : z.fpOpen = true) (hw : z.writing = false)
    (habs : absentFrom member z) :
    ∃ err : PyErr, RemovableZipfile.remove z member = .error (err, z) ∧
      err.isNotFoundError = true := by
  cases member with
  | name s =>
    have hget : RemovableZipfile.getinfo z s = none := by
      unfold RemovableZipfile.getinfo
      rw [List.find?_eq_none]
      intro e he
      simp only [beq_iff_eq]
      exact habs e he
    refine ⟨.keyError, ?_, rfl⟩
    unfold RemovableZipfile.remove
    simp [hmode, hfp, hw, hget]
  | info e =>
    refine ⟨.valueErrorNotInList, ?_, rfl⟩
    rw [remove_info_eq z e hmode hfp hw]
    exact remove_member_absent z e hsorted habs

/-- A small valid container used to witness the hypothesis-bearing claim
theorems on a concrete input. -/
def zSmall : ZipState :=
  { fp := fun i => i + 7,
    filelist := [⟨"keep.txt", 0⟩, ⟨"JndiLookup.class", 30⟩, ⟨"tail.bin", 75⟩],
    start_dir := 140, mode := "a", fpOpen := true, writing := false,
    didModify := false, cursor := 0 }

/-- C6 witness: removing the absent name `nothere` from `zSmall` raises a
not-found error with the state unchanged. -/
theorem C6_witness :
    ∃ err : PyErr, RemovableZipfile.remove zSmall (.name "nothere") = .error (err, zSmall) ∧
      err.isNotFoundError = true :=
  C6_absent_target_fails zSmall (.name "nothere") (chain'_of_sortedLtB (by decide))
    rfl rfl rfl (by decide)

/-- C10: whenever `remove` raises — wrong mode, closed stream, active
writing handle, or target absent from the (sorted) index — the container
state carried at the raise point is exactly the pre-call state: same entry
list with the same header offsets, same `start_dir`, same byte stream. -/
theorem C10_error_leaves_state (z : ZipState) (member : Member) (err : PyErr) (s : ZipState)
    (hsorted : List.Chain' (fun a b => a.header_offset < b.header_offset) z.filelist)
    (h : RemovableZipfile.remove z member = .error (err, s)) :
    s = z := by
  unfold RemovableZipfile.remove at h
  by_cases h1 : z.mode ≠ "a"
  · rw [if_pos h1] at h
    simp only [Except.error.injEq, Prod.mk.injEq] at h
    exact h.2.symm
  · rw [if_neg h1] at h
    by_cases h2 : (!z.fpOpen) = true
    · rw [if_pos h2] at h
      simp only [Except.error.injEq, Prod.mk.injEq] at h
      exact h.2.symm
    · rw [if_neg h2] at h
      by_cases h3 : z.writing = true
      · rw [if_pos h3] at h
        simp only [Except.error.injEq, Prod.mk.injEq] at h
        exact h.2.symm
      · rw [if_neg h3] at h
        have hdone : ∀ m : Entry, RemovableZipfile._remove_member z m = .error (err, s) → s = z := by
          intro m hmm
          by_cases hmem : m ∈ z.filelist
          · unfold RemovableZipfile._remove_member at hmm
            simp only [hmem, if_true] at hmm
            exact Except.noConfusion hmm
          · rw [remove_member_absent z m hsorted hmem] at hmm
            simp only [Except.error.injEq, Prod.mk.injEq] at hmm
            exact hmm.2.symm
        cases member with
        | name nm =>
          dsimp only at h
          rcases hg : RemovableZipfile.getinfo z nm with _ | m
          · rw [hg] at h
            simp only [Except.error.injEq, Prod.mk.injEq] at h
            exact h.2.symm
          · rw [hg] at h
            exact hdone m h
        | info e =>
          dsimp only at h
          exact hdone e h

/-- C10 witness: calling `remove` on a read-mode copy of `zSmall` errors
and hands back exactly that state. -/
theorem C10_witness :
    ∃ s : ZipState,
      RemovableZipfile.remove
          { zSmall with mode := "r" } (.name "JndiLookup.class")
        = .error (.runtimeError, s) ∧ s = { zSmall with mode := "r" } :=
  ⟨{ zSmall with mode := "r" }, rfl,
    C10_error_leaves_state { zSmall with mode := "r" } (.name "JndiLookup.class")
      .runtimeError { zSmall with mode := "r" } (chain'_of_sortedLtB (by decide)) rfl⟩

/-- Computing `sizeIn` on a sorted list split around `e`: the raw size is
the distance to the next entry's header offset (or to `dirStart`). -/
theorem sizeIn_split (e : Entry) (d : Nat) :
    ∀ (A : List Entry) (B : List Entry),
      (∀ a ∈ A, a.header_offset < e.header_offset) →
      (∀ b ∈ B, e.header_offset < b.header_offset) →
      sizeIn (A ++ e :: B) d e = nextOffset B d - e.header_offset := by
  intro A
  induction A with
  | nil =>
    intro B _ hB
    cases B with
    | nil => simp [sizeIn, List.find?_cons, Nat.lt_irrefl, nextOffset]
    | cons b B' =>
      simp [sizeIn, List.find?_cons, Nat.lt_irrefl, hB b (List.mem_cons_self _ _), nextOffset]
  | cons a A' ih =>
    intro B hA hB
    have hna : ¬ (e.header_offset < a.header_offset) := by
      have := hA a (List.mem_cons_self _ _); omega
    have step : sizeIn (a :: (A' ++ e :: B)) d e = sizeIn (A' ++ e :: B) d e := by
      simp [sizeIn, List.find?_cons, hna]
    rw [List.cons_append, step]
    exact ih B (fun x hx => hA x (List.mem_cons_of_mem _ hx)) hB

/-- C1: on a valid archive (sorted, in-bounds, duplicate-free names),
removing member `m` succeeds and the resulting container — which is what a
re-parse after the directory rewrite at close observes — has exactly one
entry fewer, its name list is the original minus `m`'s name, every
surviving entry reappears (at its original or shifted offset) with payload
bytes byte-for-byte identical over its whole pre-removal raw span, and the
container again satisfies the structural validity invariants. -/
theorem C1_roundtrip (z : ZipState) (m : Entry)
    (hv : ValidZip z) (hnn : NodupNames z) (hm : m ∈ z.filelist)
    (hmode : z.mode = "a") (hfp : z.fpOpen = true) (hw : z.writing = false) :
    ∃ z', RemovableZipfile.remove z (.info m) = .ok z' ∧
      z'.filelist.length + 1 = z.filelist.length ∧
      z'.filelist.map Entry.filename = (z.filelist.map Entry.filename).erase m.filename ∧
      (∀ e ∈ z.filelist, e ≠ m →
        ∃ e' ∈ z'.filelist, e'.filename = e.filename ∧
          ∀ j, j < sizeIn z.filelist z.start_dir e →
            z'.fp (e'.header_offset + j) = z.fp (e.header_offset + j)) ∧
      ValidZip z' ∧ NodupNames z' := by
  obtain ⟨P, S, hsplit⟩ := List.append_of_mem hm
  obtain ⟨hsorted, hbound⟩ := hv
  have hbound' : ∀ e ∈ P ++ m :: S, e.header_offset < z.start_dir := by
    rw [← hsplit]; exact hbound
  have hpw : List.Pairwise (fun a b => a.header_offset < b.header_offset) (P ++ m :: S) := by
    rw [← hsplit]; exact List.chain'_iff_pairwise.mp hsorted
  rw [List.pairwise_append] at hpw
  obtain ⟨hpwP, hpwMS, hcross⟩ := hpw
  rw [List.pairwise_cons] at hpwMS
  obtain ⟨hSm, hpwS⟩ := hpwMS
  have hP : ∀ p ∈ P, p.header_offset < m.header_offset :=
    fun p hp => hcross p hp m (List.mem_cons_self _ _)
  have hlb := S_off_lb m S z.start_dir hSm hpwS
  have hmd : m.header_offset < z.start_dir :=
    hbound' m (List.mem_append_right _ (List.mem_cons_self _ _))
  obtain ⟨g', hok, hfp'⟩ := remove_member_char z m P S hsplit hsorted hbound
  rw [remove_info_eq z m hmode hfp hw]
  refine ⟨_, hok, ?_, ?_, ?_, ?_, ?_⟩
  · -- one entry fewer
    rw [hsplit]
    simp
    omega
  · -- names
    have hnames : (P ++ m :: S).map Entry.filename
        = P.map Entry.filename ++ m.filename :: S.map Entry.filename := by simp
    have hnn' : (P.map Entry.filename ++ m.filename :: S.map Entry.filename).Nodup := by
      rw [← hnames, ← hsplit]; exact hnn
    have hmnP : m.filename ∉ P.map Entry.filename := by
      intro hmem2
      rcases List.nodup_append.mp hnn' with ⟨_, _, hdisj⟩
      exact hdisj hmem2 (List.mem_cons_self _ _)
    show (P ++ S.map (shiftEntry _)).map Entry.filename = _
    rw [hsplit, hnames]
    rw [List.map_append, List.map_map]
    rw [List.erase_append_right _ hmnP, List.erase_cons_head]
    rfl
  · -- payload preservation
    intro e he hne
    rw [hsplit] at he
    rcases List.mem_append.mp he with heP | heMS
    · -- e is before the target: untouched
      obtain ⟨P1, P2, hP12⟩ := List.append_of_mem heP
      have hsplit2 : z.filelist = P1 ++ e :: (P2 ++ m :: S) := by
        rw [hsplit, hP12]; simp
      have hpwP' := hpwP
      rw [hP12, List.pairwise_append] at hpwP'
      obtain ⟨_, hpwP2, hcrossP⟩ := hpwP'
      rw [List.pairwise_cons] at hpwP2
      have hA1 : ∀ a ∈ P1, a.header_offset < e.header_offset :=
        fun a ha => hcrossP a ha e (List.mem_cons_self _ _)
      have hB1 : ∀ b ∈ P2 ++ m :: S, e.header_offset < b.header_offset := by
        intro b hb
        rcases List.mem_append.mp hb with h1 | h2
        · exact hpwP2.1 b h1
        · have heme : e.header_offset < m.header_offset := by
            apply hP e; rw [hP12]; exact List.mem_append_right _ (List.mem_cons_self _ _)
          rcases List.mem_cons.mp h2 with rfl | h3
          · exact heme
          · exact Nat.lt_trans heme (hSm b h3)
      have hsize : sizeIn z.filelist z.start_dir e
          = nextOffset (P2 ++ m :: S) z.start_dir - e.header_offset := by
        rw [hsplit2]; exact sizeIn_split e z.start_dir P1 (P2 ++ m :: S) hA1 hB1
      have hnext_le : nextOffset (P2 ++ m :: S) z.start_dir ≤ m.header_offset := by
        cases P2 with
        | nil => exact Nat.le_refl _
        | cons f P2' =>
          have hf : f ∈ P := by
            rw [hP12]; exact List.mem_append_right _ (List.mem_cons_of_mem _ (List.mem_cons_self _ _))
          exact Nat.le_of_lt (hP f hf)
      refine ⟨e, List.mem_append_left _ heP, rfl, ?_⟩
      intro j hj
      rw [hsize] at hj
      show g' (e.header_offset + j) = z.fp (e.header_offset + j)
      rw [hfp' (e.header_offset + j), if_neg (by omega)]
    · rcases List.mem_cons.mp heMS with rfl | heS
      · exact absurd rfl hne
      · -- e is after the target: shifted down, bytes preserved
        obtain ⟨S1, S2, hS12⟩ := List.append_of_mem heS
        have hsplit3 : z.filelist = (P ++ m :: S1) ++ e :: S2 := by
          rw [hsplit, hS12]; simp
        have hpwS' := hpwS
        rw [hS12, List.pairwise_append] at hpwS'
        obtain ⟨_, hpwS2, hcrossS⟩ := hpwS'
        rw [List.pairwise_cons] at hpwS2
        have hme : m.header_offset < e.header_offset := hSm e heS
        have hA2 : ∀ a ∈ P ++ m :: S1, a.header_offset < e.header_offset := by
          intro a ha
          rcases List.mem_append.mp ha with h1 | h2
          · exact Nat.lt_trans (hP a h1) hme
          · rcases List.mem_cons.mp h2 with rfl | h3
            · exact hme
            · exact hcrossS a h3 e (List.mem_cons_self _ _)
        have hB2 : ∀ b ∈ S2, e.header_offset < b.header_offset := hpwS2.1
        have hsize : sizeIn z.filelist z.start_dir e
            = nextOffset S2 z.start_dir - e.header_offset := by
          rw [hsplit3]; exact sizeIn_split e z.start_dir (P ++ m :: S1) S2 hA2 hB2
        have hS2d : nextOffset S2 z.start_dir ≤ z.start_dir := by
          cases S2 with
          | nil => exact Nat.le_refl _
          | cons f S2' =>
            have hf : f ∈ P ++ m :: S := by
              rw [hS12]
              exact List.mem_append_right _ (List.mem_cons_of_mem _
                (List.mem_append_right _ (List.mem_cons_of_mem _ (List.mem_cons_self _ _))))
            exact Nat.le_of_lt (hbound' f hf)
        have hlbe := hlb e heS
        refine ⟨shiftEntry (nextOffset S z.start_dir - m.header_offset) e, ?_, rfl, ?_⟩
        · exact List.mem_append_right _ (List.mem_map_of_mem _ heS)
        · intro j hj
          rw [hsize] at hj
          show g' (e.header_offset - (nextOffset S z.start_dir - m.header_offset) + j) = _
          rw [hfp' _, if_pos (by omega)]
          exact congrArg z.fp (by omega)
  · -- structural validity
    have hpw2 : List.Pairwise (fun a b => a.header_offset < b.header_offset) (P ++ m :: S) := by
      rw [← hsplit]; exact List.chain'_iff_pairwise.mp hsorted
    obtain ⟨hc1, hc2⟩ := valid_shift P S m z.start_dir hpw2 hbound'
    exact ⟨List.chain'_iff_pairwise.mpr hc1, hc2⟩
  · -- names stay duplicate-free
    show ((P ++ S.map (shiftEntry _)).map Entry.filename).Nodup
    have hsub : (P ++ S.map (shiftEntry (nextOffset S z.start_dir - m.header_offset))).map
          Entry.filename
        = P.map Entry.filename ++ S.map Entry.filename := by
      rw [List.map_append, List.map_map]; rfl
    rw [hsub]
    have hnn' : (P.map Entry.filename ++ m.filename :: S.map Entry.filename).Nodup := by
      have : (P ++ m :: S).map Entry.filename
          = P.map Entry.filename ++ m.filename :: S.map Entry.filename := by simp
      rw [← this, ← hsplit]; exact hnn
    exact List.Nodup.sublist
      (List.Sublist.append_left (List.sublist_cons_self _ _) _) hnn'

/-- C1 witness: removing `JndiLookup.class` from the concrete valid
container `zSmall` satisfies the round-trip conclusions. -/
theorem C1_witness :
    ∃ z', RemovableZipfile.remove zSmall (.info ⟨"JndiLookup.class", 30⟩) = .ok z' ∧
      z'.filelist.length + 1 = zSmall.filelist.length ∧
      z'.filelist.map Entry.filename
        = (zSmall.filelist.map Entry.filename).erase "JndiLookup.class" ∧
      (∀ e ∈ zSmall.filelist, e ≠ ⟨"JndiLookup.class", 30⟩ →
        ∃ e' ∈ z'.filelist, e'.filename = e.filename ∧
          ∀ j, j < sizeIn zSmall.filelist zSmall.start_dir e →
            z'.fp (e'.header_offset + j) = zSmall.fp (e.header_offset + j)) ∧
      ValidZip z' ∧ NodupNames z' :=
  C1_roundtrip zSmall ⟨"JndiLookup.class", 30⟩
    ⟨chain'_of_sortedLtB (by decide), by decide⟩ (by decide) (by decide) rfl rfl rfl

/-- C4: a successful removal has exactly this frame effect: `start_dir`
drops by the target's raw size; every entry whose header offset is below
the target's stays in the index unchanged, with every byte below the
target's header offset (in particular its whole raw span) untouched on
disk; every entry whose header offset is above the target's reappears with
its header offset decremented by exactly the target's raw size. -/
theorem C4_frame (z : ZipState) (m : Entry)
    (hv : ValidZip z) (hm : m ∈ z.filelist)
    (hmode : z.mode = "a") (hfp : z.fpOpen = true) (hw : z.writing = false) :
    ∃ z', RemovableZipfile.remove z (.info m) = .ok z' ∧
      z'.start_dir = z.start_dir - sizeIn z.filelist z.start_dir m ∧
      (∀ e ∈ z.filelist, e.header_offset < m.header_offset →
        e ∈ z'.filelist ∧
          e.header_offset + sizeIn z.filelist z.start_dir e ≤ m.header_offset) ∧
      (∀ i, i < m.header_offset → z'.fp i = z.fp i) ∧
      (∀ e ∈ z.filelist, m.header_offset < e.header_offset →
        ({ e with header_offset :=
            e.header_offset - sizeIn z.filelist z.start_dir m } : Entry) ∈ z'.filelist) := by
  obtain ⟨P, S, hsplit⟩ := List.append_of_mem hm
  obtain ⟨hsorted, hbound⟩ := hv
  have hpw : List.Pairwise (fun a b => a.header_offset < b.header_offset) (P ++ m :: S) := by
    rw [← hsplit]; exact List.chain'_iff_pairwise.mp hsorted
  have hpw' := hpw
  rw [List.pairwise_append] at hpw'
  obtain ⟨hpwP, hpwMS, hcross⟩ := hpw'
  rw [List.pairwise_cons] at hpwMS
  obtain ⟨hSm, hpwS⟩ := hpwMS
  have hP : ∀ p ∈ P, p.header_offset < m.header_offset :=
    fun p hp => hcross p hp m (List.mem_cons_self _ _)
  have hsizem : sizeIn z.filelist z.start_dir m
      = nextOffset S z.start_dir - m.header_offset := by
    rw [hsplit]; exact sizeIn_split m z.start_dir P S hP hSm
  obtain ⟨g', hok, hfp'⟩ := remove_member_char z m P S hsplit hsorted hbound
  rw [remove_info_eq z m hmode hfp hw]
  refine ⟨_, hok, by rw [hsizem], ?_, ?_, ?_⟩
  · -- entries below the target
    intro e he helt
    have heP : e ∈ P := by
      rw [hsplit] at he
      rcases List.mem_append.mp he with h | h
      · exact h
      · rcases List.mem_cons.mp h with rfl | h2
        · exact absurd helt (Nat.lt_irrefl _)
        · exact absurd (Nat.lt_trans (hSm e h2) helt) (Nat.lt_irrefl _)
    refine ⟨List.mem_append_left _ heP, ?_⟩
    obtain ⟨P1, P2, hP12⟩ := List.append_of_mem heP
    have hsplit2 : z.filelist = P1 ++ e :: (P2 ++ m :: S) := by
      rw [hsplit, hP12]; simp
    have hpwP' := hpwP
    rw [hP12, List.pairwise_append] at hpwP'
    obtain ⟨_, hpwP2, hcrossP⟩ := hpwP'
    rw [List.pairwise_cons] at hpwP2
    have hA1 : ∀ a ∈ P1, a.header_offset < e.header_offset :=
      fun a ha => hcrossP a ha e (List.mem_cons_self _ _)
    have hB1 : ∀ b ∈ P2 ++ m :: S, e.header_offset < b.header_offset := by
      intro b hb
      rcases List.mem_append.mp hb with h1 | h2
      · exact hpwP2.1 b h1
      · rcases List.mem_cons.mp h2 with rfl | h3
        · exact helt
        · exact Nat.lt_trans helt (hSm b h3)
    have hsize : sizeIn z.filelist z.start_dir e
        = nextOffset (P2 ++ m :: S) z.start_dir - e.header_offset := by
      rw [hsplit2]; exact sizeIn_split e z.start_dir P1 (P2 ++ m :: S) hA1 hB1
    have hnext_le : nextOffset (P2 ++ m :: S) z.start_dir ≤ m.header_offset := by
      cases P2 with
      | nil => exact Nat.le_refl _
      | cons f P2' =>
        have hf : f ∈ P := by
          rw [hP12]
          exact List.mem_append_right _ (List.mem_cons_of_mem _ (List.mem_cons_self _ _))
        exact Nat.le_of_lt (hP f hf)
    have hnext_gt : e.header_offset < nextOffset (P2 ++ m :: S) z.start_dir := by
      cases P2 with
      | nil => exact helt
      | cons f P2' => exact hpwP2.1 f (List.mem_cons_self _ _)
    rw [hsize]
    omega
  · -- bytes below the target's header offset
    intro i hi
    show g' i = z.fp i
    rw [hfp' i, if_neg (by omega)]
  · -- entries above the target
    intro e he hgt
    have heS : e ∈ S := by
      rw [hsplit] at he
      rcases List.mem_append.mp he with h | h
      · exact absurd (Nat.lt_trans (hP e h) hgt) (Nat.lt_irrefl _)
      · rcases List.mem_cons.mp h with rfl | h2
        · exact absurd hgt (Nat.lt_irrefl _)
        · exact h2
    have : ({ e with header_offset :=
        e.header_offset - sizeIn z.filelist z.start_dir m } : Entry)
        = shiftEntry (nextOffset S z.start_dir - m.header_offset) e := by
      rw [hsizem]; rfl
    rw [this]
    exact List.mem_append_right _ (List.mem_map_of_mem _ heS)

/-- C4 witness: the frame effect holds for removing `JndiLookup.class`
from the concrete container `zSmall`. -/
theorem C4_witness :
    ∃ z', RemovableZipfile.remove zSmall (.info ⟨"JndiLookup.class", 30⟩) = .ok z' ∧
      z'.start_dir = zSmall.start_dir
          - sizeIn zSmall.filelist zSmall.start_dir ⟨"JndiLookup.class", 30⟩ ∧
      (∀ e ∈ zSmall.filelist, e.header_offset < 30 →
        e ∈ z'.filelist ∧
          e.header_offset + sizeIn zSmall.filelist zSmall.start_dir e ≤ 30) ∧
      (∀ i, i < 30 → z'.fp i = zSmall.fp i) ∧
      (∀ e ∈ zSmall.filelist, 30 < e.header_offset →
        ({ e with header_offset :=
            e.header_offset - sizeIn zSmall.filelist zSmall.start_dir ⟨"JndiLookup.class", 30⟩ }
          : Entry) ∈ z'.filelist) :=
  C4_frame zSmall ⟨"JndiLookup.class", 30⟩
    ⟨chain'_of_sortedLtB (by decide), by decide⟩ (by decide) rfl rfl rfl

theorem nextOffset_append (A B : List Entry) (d : Nat) :
    nextOffset (A ++ B) d = nextOffset A (nextOffset B d) := by
  cases A <;> rfl

theorem sizesOf_append (A B : List Entry) (d : Nat) :
    sizesOf (A ++ B) d = sizesOf A (nextOffset B d) ++ sizesOf B d := by
  induction A with
  | nil => rfl
  | cons a A' ih =>
    show sizesOf (a :: (A' ++ B)) d = _
    rw [sizesOf, nextOffset_append, ih]
    rfl

theorem sizesOf_length (l : List Entry) (d : Nat) : (sizesOf l d).length = l.length := by
  induction l with
  | nil => rfl
  | cons e rest ih => rw [sizesOf, List.length_cons, List.length_cons, ih]

theorem eraseIdx_append_cons {α : Type} :
    ∀ (l₁ : List α) (a : α) (l₂ : List α), (l₁ ++ a :: l₂).eraseIdx l₁.length = l₁ ++ l₂ := by
  intro l₁
  induction l₁ with
  | nil => intro a l₂; rfl
  | cons x l ih =>
    intro a l₂
    show x :: (l ++ a :: l₂).eraseIdx l.length = _
    rw [ih]
    rfl

/-- Shifting every entry of a chain down by a uniform `sz` preserves the
derived sizes, provided `sz` does not underflow any offset or `d`. -/
theorem sizesOf_map_shift (sz : Nat) :
    ∀ (S : List Entry) (d : Nat), (∀ s ∈ S, sz ≤ s.header_offset) → sz ≤ d →
      sizesOf (S.map (shiftEntry sz)) (d - sz) = sizesOf S d := by
  intro S
  induction S with
  | nil => intro d _ _; rfl
  | cons f rest ih =>
    intro d hS hd
    have hf : sz ≤ f.header_offset := hS f (List.mem_cons_self _ _)
    have hrest : ∀ s ∈ rest, sz ≤ s.header_offset :=
      fun s hs => hS s (List.mem_cons_of_mem _ hs)
    show (nextOffset (rest.map (shiftEntry sz)) (d - sz) - (f.header_offset - sz))
        :: sizesOf (rest.map (shiftEntry sz)) (d - sz) = _
    rw [ih d hrest hd, sizesOf]
    congr 1
    cases rest with
    | nil => show (d - sz) - (f.header_offset - sz) = d - f.header_offset; omega
    | cons g rest' =>
      show (g.header_offset - sz) - (f.header_offset - sz) = g.header_offset - f.header_offset
      have := hrest g (List.mem_cons_self _ _)
      omega

/-- A sorted, in-bounds entry list together with its derived sizes tiles
the byte region from its first header offset up to `dirStart`. -/
theorem tile_of_sorted :
    ∀ (l : List Entry) (d : Nat),
      List.Pairwise (fun a b => a.header_offset < b.header_offset) l →
      (∀ e ∈ l, e.header_offset ≤ d) →
      tile (nextOffset l d) (l.zip (sizesOf l d)) d = true := by
  intro l
  induction l with
  | nil => intro d _ _; simp [tile, nextOffset]
  | cons e rest ih =>
    intro d hpw hbd
    rw [List.pairwise_cons] at hpw
    have hnext : e.header_offset ≤ nextOffset rest d := by
      cases rest with
      | nil => exact hbd e (List.mem_cons_self _ _)
      | cons f _ => exact Nat.le_of_lt (hpw.1 f (List.mem_cons_self _ _))
    show tile e.header_offset
        ((e, nextOffset rest d - e.header_offset) :: rest.zip (sizesOf rest d)) d = true
    rw [tile, Bool.and_eq_true, beq_iff_eq]
    refine ⟨rfl, ?_⟩
    rw [show e.header_offset + (nextOffset rest d - e.header_offset) = nextOffset rest d
      by omega]
    exact ih d hpw.2 (fun x hx => hbd x (List.mem_cons_of_mem _ hx))

/-- C3: on a valid container whose entries (with their derived raw sizes)
tile the region from 0 to `dirStart`, removing the member `m` (sitting at
position `P.length` of the index) yields a container whose surviving
entries still carry exactly the original raw sizes (the size list loses
only `m`'s element), and, paired with those original sizes, tile the
region from 0 to the new `dirStart`: adjacent entries remain gap- and
overlap-free and the last entry ends exactly at the new directory start. -/
theorem C3_contiguity (z : ZipState) (m : Entry) (P S : List Entry)
    (hsplit : z.filelist = P ++ m :: S)
    (hv : ValidZip z)
    (htile : tile 0 (z.filelist.zip (sizesOf z.filelist z.start_dir)) z.start_dir = true)
    (hmode : z.mode = "a") (hfp : z.fpOpen = true) (hw : z.writing = false) :
    ∃ z', RemovableZipfile.remove z (.info m) = .ok z' ∧
      sizesOf z'.filelist z'.start_dir
        = (sizesOf z.filelist z.start_dir).eraseIdx P.length ∧
      tile 0 (z'.filelist.zip ((sizesOf z.filelist z.start_dir).eraseIdx P.length))
          z'.start_dir = true := by
  obtain ⟨hsorted, hbound⟩ := hv
  have hbound' : ∀ e ∈ P ++ m :: S, e.header_offset < z.start_dir := by
    rw [← hsplit]; exact hbound
  have hpw : List.Pairwise (fun a b => a.header_offset < b.header_offset) (P ++ m :: S) := by
    rw [← hsplit]; exact List.chain'_iff_pairwise.mp hsorted
  have hpw' := hpw
  rw [List.pairwise_append] at hpw'
  obtain ⟨hpwP, hpwMS, hcross⟩ := hpw'
  rw [List.pairwise_cons] at hpwMS
  obtain ⟨hSm, hpwS⟩ := hpwMS
  have hmd : m.header_offset < z.start_dir :=
    hbound' m (List.mem_append_right _ (List.mem_cons_self _ _))
  have hlb := S_off_lb m S z.start_dir hSm hpwS
  have hnd : nextOffset S z.start_dir ≤ z.start_dir := by
    cases S with
    | nil => exact Nat.le_refl _
    | cons f _ =>
      exact Nat.le_of_lt (hbound' f
        (List.mem_append_right _ (List.mem_cons_of_mem _ (List.mem_cons_self _ _))))
  have hmb : m.header_offset ≤ nextOffset S z.start_dir := by
    cases S with
    | nil => exact Nat.le_of_lt hmd
    | cons f _ => exact Nat.le_of_lt (hSm f (List.mem_cons_self _ _))
  obtain ⟨g', hok, hfp'⟩ := remove_member_char z m P S hsplit hsorted hbound
  rw [remove_info_eq z m hmode hfp hw]
  -- abbreviate the shift
  have hszS : ∀ s ∈ S, (nextOffset S z.start_dir - m.header_offset) ≤ s.header_offset := by
    intro s hs
    have := hlb s hs
    omega
  have hszd : (nextOffset S z.start_dir - m.header_offset) ≤ z.start_dir := by omega
  -- the old size list, split around m
  have hold : sizesOf z.filelist z.start_dir
      = sizesOf P m.header_offset
        ++ (nextOffset S z.start_dir - m.header_offset) :: sizesOf S z.start_dir := by
    rw [hsplit, sizesOf_append]
    rfl
  have herase : (sizesOf z.filelist z.start_dir).eraseIdx P.length
      = sizesOf P m.header_offset ++ sizesOf S z.start_dir := by
    rw [hold, ← sizesOf_length P m.header_offset, eraseIdx_append_cons]
  -- the new head offset of the shifted tail region is m's old offset
  have hnextnew : nextOffset (S.map (shiftEntry (nextOffset S z.start_dir - m.header_offset)))
      (z.start_dir - (nextOffset S z.start_dir - m.header_offset)) = m.header_offset := by
    cases S with
    | nil => show z.start_dir - (z.start_dir - m.header_offset) = m.header_offset; omega
    | cons f S' =>
      show f.header_offset - (f.header_offset - m.header_offset) = m.header_offset
      have := hSm f (List.mem_cons_self _ _)
      omega
  -- the new size list equals the old one with m's entry dropped
  have hnew : sizesOf (P ++ S.map (shiftEntry (nextOffset S z.start_dir - m.header_offset)))
        (z.start_dir - (nextOffset S z.start_dir - m.header_offset))
      = sizesOf P m.header_offset ++ sizesOf S z.start_dir := by
    rw [sizesOf_append, hnextnew, sizesOf_map_shift _ S z.start_dir hszS hszd]
  refine ⟨_, hok, ?_, ?_⟩
  · show sizesOf (P ++ S.map (shiftEntry (nextOffset S z.start_dir - m.header_offset)))
        (z.start_dir - (nextOffset S z.start_dir - m.header_offset)) = _
    rw [hnew, herase]
  · -- the survivors tile from 0 to the new dirStart
    obtain ⟨hpw1, hbd1⟩ := valid_shift P S m z.start_dir hpw hbound'
    have hbd1' : ∀ e ∈ P ++ S.map (shiftEntry (nextOffset S z.start_dir - m.header_offset)),
        e.header_offset ≤ z.start_dir - (nextOffset S z.start_dir - m.header_offset) :=
      fun e he => Nat.le_of_lt (hbd1 e he)
    have htl := tile_of_sorted
      (P ++ S.map (shiftEntry (nextOffset S z.start_dir - m.header_offset)))
      (z.start_dir - (nextOffset S z.start_dir - m.header_offset)) hpw1 hbd1'
    -- the first surviving header offset is still 0
    have hhead0 : nextOffset
        (P ++ S.map (shiftEntry (nextOffset S z.start_dir - m.header_offset)))
        (z.start_dir - (nextOffset S z.start_dir - m.header_offset)) = 0 := by
      rw [nextOffset_append, hnextnew]
      cases P with
      | nil =>
        -- then m is the original head entry, so m.header_offset = 0
        show m.header_offset = 0
        rw [hsplit] at htile
        cases hP0 : (([] : List Entry) ++ m :: S) with
        | nil => simp at hP0
        | cons e0 rest0 =>
          simp at hP0
          rw [show ([] : List Entry) ++ m :: S = m :: S from rfl] at htile
          rw [show (m :: S).zip (sizesOf (m :: S) z.start_dir)
            = (m, nextOffset S z.start_dir - m.header_offset)
                :: S.zip (sizesOf S z.start_dir) from rfl] at htile
          rw [tile, Bool.and_eq_true, beq_iff_eq] at htile
          exact htile.1
      | cons p P' =>
        show p.header_offset = 0
        rw [hsplit] at htile
        rw [show ((p :: P') ++ m :: S).zip
              (sizesOf ((p :: P') ++ m :: S) z.start_dir)
            = (p, nextOffset (P' ++ m :: S) z.start_dir - p.header_offset)
                :: (P' ++ m :: S).zip (sizesOf (P' ++ m :: S) z.start_dir) from rfl] at htile
        rw [tile, Bool.and_eq_true, beq_iff_eq] at htile
        exact htile.1
    rw [hhead0] at htl
    show tile 0 ((P ++ S.map (shiftEntry (nextOffset S z.start_dir - m.header_offset))).zip
        ((sizesOf z.filelist z.start_dir).eraseIdx P.length))
        (z.start_dir - (nextOffset S z.start_dir - m.header_offset)) = true
    rw [herase, ← hnew]
    exact htl

/-- C3 witness: `zSmall` is contiguous from 0 to 140; removing
`JndiLookup.class` (position 1) keeps the survivors contiguous with their
original sizes up to the new `dirStart`. -/
theorem C3_witness :
    ∃ z', RemovableZipfile.remove zSmall (.info ⟨"JndiLookup.class", 30⟩) = .ok z' ∧
      sizesOf z'.filelist z'.start_dir
        = (sizesOf zSmall.filelist zSmall.start_dir).eraseIdx 1 ∧
      tile 0 (z'.filelist.zip ((sizesOf zSmall.filelist zSmall.start_dir).eraseIdx 1))
          z'.start_dir = true :=
  C3_contiguity zSmall ⟨"JndiLookup.class", 30⟩
    [⟨"keep.txt", 0⟩] [⟨"tail.bin", 75⟩] (by decide)
    ⟨chain'_of_sortedLtB (by decide), by decide⟩ (by decide) rfl rfl rfl

theorem shiftEntry_comp (sa sb : Nat) (e : Entry) :
    shiftEntry sb (shiftEntry sa e) = shiftEntry (sa + sb) e := by
  simp [shiftEntry, Nat.sub_sub]

theorem map_shift_shift (R : List Entry) (sa sb : Nat) :
    (R.map (shiftEntry sa)).map (shiftEntry sb) = R.map (shiftEntry (sa + sb)) := by
  rw [List.map_map]
  have : shiftEntry sb ∘ shiftEntry sa = shiftEntry (sa + sb) :=
    funext fun e => shiftEntry_comp sa sb e
  rw [this]

theorem nextOffset_map_shift (S : List Entry) (sz d : Nat) :
    nextOffset (S.map (shiftEntry sz)) (d - sz) = nextOffset S d - sz := by
  cases S with
  | nil => rfl
  | cons f _ => rfl

theorem nodupNames_shift (P S : List Entry) (m : Entry) (sz : Nat)
    (hnn : ((P ++ m :: S).map Entry.filename).Nodup) :
    ((P ++ S.map (shiftEntry sz)).map Entry.filename).Nodup := by
  have h1 : (P ++ S.map (shiftEntry sz)).map Entry.filename
      = P.map Entry.filename ++ S.map Entry.filename := by
    rw [List.map_append, List.map_map]; rfl
  have h2 : (P ++ m :: S).map Entry.filename
      = P.map Entry.filename ++ m.filename :: S.map Entry.filename := by simp
  rw [h1]
  rw [h2] at hnn
  exact List.Nodup.sublist (List.Sublist.append_left (List.sublist_cons_self _ _) _) hnn

/-- The two left-to-right compactions — cut `sa` bytes at `a` then `sb`
bytes at `b - sa`, versus cut `sb` bytes at `b` then `sa` bytes at `a` —
agree on every byte below the final directory start. -/
theorem compaction_comm (f : Nat → Nat) (a b sa sb d : Nat)
    (h1 : a + sa ≤ b) (h2 : b + sb ≤ d) (i : Nat) (hi : i < d - sa - sb) :
    (if b - sa ≤ i ∧ i < d - sa - sb then
       (if a ≤ i + sb ∧ i + sb < d - sa then f (i + sb + sa) else f (i + sb))
     else (if a ≤ i ∧ i < d - sa then f (i + sa) else f i))
    =
    (if a ≤ i ∧ i < d - sb - sa then
       (if b ≤ i + sa ∧ i + sa < d - sb then f (i + sa + sb) else f (i + sa))
     else (if b ≤ i ∧ i < d - sb then f (i + sb) else f i)) := by
  by_cases c1 : i < a
  · rw [if_neg (by omega), if_neg (by omega), if_neg (by omega), if_neg (by omega)]
  · by_cases c2 : i < b - sa
    · rw [if_neg (by omega), if_pos (by omega), if_pos (by omega), if_neg (by omega)]
    · rw [if_pos (by omega), if_pos (by omega), if_pos (by omega), if_pos (by omega)]
      exact congrArg f (by omega)

/-- Successful removal by name, packaged with an opaque result state and
equations for each observable field. -/
theorem remove_name_char (z : ZipState) (m : Entry) (P S : List Entry)
    (hsplit : z.filelist = P ++ m :: S)
    (hsorted : List.Chain' (fun a b => a.header_offset < b.header_offset) z.filelist)
    (hbound : ∀ e ∈ z.filelist, e.header_offset < z.start_dir)
    (hnn : NodupNames z)
    (hmode : z.mode = "a") (hfp : z.fpOpen = true) (hw : z.writing = false) :
    ∃ z', RemovableZipfile.remove z (.name m.filename) = .ok z' ∧
      z'.filelist = P ++ S.map (shiftEntry (nextOffset S z.start_dir - m.header_offset)) ∧
      z'.start_dir = z.start_dir - (nextOffset S z.start_dir - m.header_offset) ∧
      z'.mode = z.mode ∧ z'.fpOpen = z.fpOpen ∧ z'.writing = z.writing ∧
      ∀ i, z'.fp i =
        if m.header_offset ≤ i ∧ i < z.start_dir - (nextOffset S z.start_dir - m.header_offset)
        then z.fp (i + (nextOffset S z.start_dir - m.header_offset)) else z.fp i := by
  have hmem : m ∈ z.filelist := by
    rw [hsplit]; exact List.mem_append_right _ (List.mem_cons_self _ _)
  have hget : RemovableZipfile.getinfo z m.filename = some m :=
    getinfo_of_mem z.filelist m hnn hmem
  obtain ⟨g', hok, hfp'⟩ := remove_member_char z m P S hsplit hsorted hbound
  exact ⟨_, (remove_name_eq z m.filename m hmode hfp hw hget).trans hok,
    rfl, rfl, rfl, rfl, rfl, hfp'⟩

/-- Removing `A` then `B` versus `B` then `A` (by name), for targets at
offsets `A < B` in a valid duplicate-free container: all four removals
succeed, and the two final containers agree on the entry list, the
directory start, and every byte below it. -/
theorem remove_two_ordered (z : ZipState) (A B : Entry) (P Q R : List Entry)
    (hsplit : z.filelist = P ++ A :: (Q ++ B :: R))
    (hv : ValidZip z) (hnn : NodupNames z)
    (hmode : z.mode = "a") (hfp : z.fpOpen = true) (hw : z.writing = false) :
    ∃ z1 zAB z2 zBA,
      RemovableZipfile.remove z (.name A.filename) = .ok z1 ∧
      RemovableZipfile.remove z1 (.name B.filename) = .ok zAB ∧
      RemovableZipfile.remove z (.name B.filename) = .ok z2 ∧
      RemovableZipfile.remove z2 (.name A.filename) = .ok zBA ∧
      zAB.filelist = zBA.filelist ∧ zAB.start_dir = zBA.start_dir ∧
      (∀ i, i < zAB.start_dir → zAB.fp i = zBA.fp i) := by
  obtain ⟨hsorted, hbound⟩ := hv
  have hboundF : ∀ e ∈ P ++ A :: (Q ++ B :: R), e.header_offset < z.start_dir := by
    rw [← hsplit]; exact hbound
  have hpwF : List.Pairwise (fun a b => a.header_offset < b.header_offset)
      (P ++ A :: (Q ++ B :: R)) := by
    rw [← hsplit]; exact List.chain'_iff_pairwise.mp hsorted
  have hnnF : ((P ++ A :: (Q ++ B :: R)).map Entry.filename).Nodup := by
    rw [← hsplit]; exact hnn
  have hBmem0 : B ∈ Q ++ B :: R := List.mem_append_right _ (List.mem_cons_self _ _)
  -- pairwise pieces
  have hpwF' := hpwF
  rw [List.pairwise_append] at hpwF'
  obtain ⟨hpwP, hpwTail, hcrossP⟩ := hpwF'
  rw [List.pairwise_cons] at hpwTail
  obtain ⟨hAlt, hpwQBR⟩ := hpwTail
  have hpwQBR' := hpwQBR
  rw [List.pairwise_append] at hpwQBR'
  obtain ⟨hpwQ, hpwBR, hcrossQ⟩ := hpwQBR'
  rw [List.pairwise_cons] at hpwBR
  obtain ⟨hBlt, hpwR⟩ := hpwBR
  -- bounds and arithmetic facts
  have hAd : A.header_offset < z.start_dir := hboundF A
    (List.mem_append_right _ (List.mem_cons_self _ _))
  have hBd : B.header_offset < z.start_dir := hboundF B
    (List.mem_append_right _ (List.mem_cons_of_mem _ hBmem0))
  have hABl : A.header_offset
      + (nextOffset (Q ++ B :: R) z.start_dir - A.header_offset) ≤ B.header_offset := by
    cases Q with
    | nil =>
      have hab : A.header_offset < B.header_offset := hAlt B hBmem0
      show A.header_offset + (B.header_offset - A.header_offset) ≤ B.header_offset
      omega
    | cons q Q' =>
      have h1 : A.header_offset < q.header_offset := hAlt q (List.mem_append_left _
        (List.mem_cons_self _ _))
      have h2 : q.header_offset < B.header_offset :=
        hcrossQ q (List.mem_cons_self _ _) B (List.mem_cons_self _ _)
      show A.header_offset + (q.header_offset - A.header_offset) ≤ B.header_offset
      omega
  have hBln : B.header_offset < nextOffset R z.start_dir := by
    cases R with
    | nil => exact hBd
    | cons r _ => exact hBlt r (List.mem_cons_self _ _)
  have hNRd : nextOffset R z.start_dir ≤ z.start_dir := by
    cases R with
    | nil => exact Nat.le_refl _
    | cons r _ =>
      refine Nat.le_of_lt (hboundF r ?_)
      exact List.mem_append_right _ (List.mem_cons_of_mem _
        (List.mem_append_right _ (List.mem_cons_of_mem _ (List.mem_cons_self _ _))))
  have hBB : B.header_offset + (nextOffset R z.start_dir - B.header_offset)
      ≤ z.start_dir := by omega
  -- ===== order 1, step 1: remove A =====
  obtain ⟨z1, hrem1, hfl1, hsd1, hmo1, hfo1, hwr1, hfp1⟩ :=
    remove_name_char z A P (Q ++ B :: R) hsplit hsorted hbound hnn hmode hfp hw
  obtain ⟨hpw1, hbd1⟩ := valid_shift P (Q ++ B :: R) A z.start_dir hpwF hboundF
  have hsorted1 : List.Chain' (fun a b => a.header_offset < b.header_offset) z1.filelist := by
    rw [hfl1]; exact List.chain'_iff_pairwise.mpr hpw1
  have hbound1 : ∀ e ∈ z1.filelist, e.header_offset < z1.start_dir := by
    rw [hfl1, hsd1]; exact hbd1
  have hnn1 : NodupNames z1 := by
    show (z1.filelist.map Entry.filename).Nodup
    rw [hfl1]
    exact nodupNames_shift P (Q ++ B :: R) A _ hnnF
  -- ===== order 1, step 2: remove the shifted B =====
  have hsplit1 : z1.filelist
      = (P ++ Q.map (shiftEntry (nextOffset (Q ++ B :: R) z.start_dir - A.header_offset)))
        ++ shiftEntry (nextOffset (Q ++ B :: R) z.start_dir - A.header_offset) B
          :: R.map (shiftEntry (nextOffset (Q ++ B :: R) z.start_dir - A.header_offset)) := by
    rw [hfl1]; simp [List.map_append, List.append_assoc]
  obtain ⟨z12, hrem12, hfl12, hsd12, hmo12, hfo12, hwr12, hfp12⟩ :=
    remove_name_char z1
      (shiftEntry (nextOffset (Q ++ B :: R) z.start_dir - A.header_offset) B)
      (P ++ Q.map (shiftEntry (nextOffset (Q ++ B :: R) z.start_dir - A.header_offset)))
      (R.map (shiftEntry (nextOffset (Q ++ B :: R) z.start_dir - A.header_offset)))
      hsplit1 hsorted1 hbound1 hnn1
      (by rw [hmo1]; exact hmode) (by rw [hfo1]; exact hfp) (by rw [hwr1]; exact hw)
  -- the second shift is szB
  have hsz2 : nextOffset (R.map
        (shiftEntry (nextOffset (Q ++ B :: R) z.start_dir - A.header_offset))) z1.start_dir
      - (shiftEntry (nextOffset (Q ++ B :: R) z.start_dir - A.header_offset) B).header_offset
      = nextOffset R z.start_dir - B.header_offset := by
    rw [hsd1]
    have hx := nextOffset_map_shift R
      (nextOffset (Q ++ B :: R) z.start_dir - A.header_offset) z.start_dir
    rw [hx]
    show nextOffset R z.start_dir - (nextOffset (Q ++ B :: R) z.start_dir - A.header_offset)
        - (B.header_offset - (nextOffset (Q ++ B :: R) z.start_dir - A.header_offset)) = _
    omega
  rw [hsz2] at hfl12 hsd12 hfp12
  rw [hsd1] at hsd12 hfp12
  -- ===== order 2, step 1: remove B =====
  have hsplitB : z.filelist = (P ++ A :: Q) ++ B :: R := by
    rw [hsplit]; simp
  have hpwFB : List.Pairwise (fun a b => a.header_offset < b.header_offset)
      ((P ++ A :: Q) ++ B :: R) := by
    rw [show (P ++ A :: Q) ++ B :: R = P ++ A :: (Q ++ B :: R) by simp]
    exact hpwF
  have hboundFB : ∀ e ∈ (P ++ A :: Q) ++ B :: R, e.header_offset < z.start_dir := by
    intro e he
    refine hboundF e ?_
    rw [show P ++ A :: (Q ++ B :: R) = (P ++ A :: Q) ++ B :: R by simp]
    exact he
  have hnnFB : (((P ++ A :: Q) ++ B :: R).map Entry.filename).Nodup := by
    rw [show (P ++ A :: Q) ++ B :: R = P ++ A :: (Q ++ B :: R) by simp]
    exact hnnF
  obtain ⟨z2, hrem2, hfl2, hsd2, hmo2, hfo2, hwr2, hfp2⟩ :=
    remove_name_char z B (P ++ A :: Q) R hsplitB hsorted hbound hnn hmode hfp hw
  obtain ⟨hpw2, hbd2⟩ := valid_shift (P ++ A :: Q) R B z.start_dir hpwFB hboundFB
  have hsorted2 : List.Chain' (fun a b => a.header_offset < b.header_offset) z2.filelist := by
    rw [hfl2]; exact List.chain'_iff_pairwise.mpr hpw2
  have hbound2 : ∀ e ∈ z2.filelist, e.header_offset < z2.start_dir := by
    rw [hfl2, hsd2]; exact hbd2
  have hnn2 : NodupNames z2 := by
    show (z2.filelist.map Entry.filename).Nodup
    rw [hfl2]
    exact nodupNames_shift (P ++ A :: Q) R B _ hnnFB
  -- ===== order 2, step 2: remove A =====
  have hsplit2 : z2.filelist
      = P ++ A :: (Q ++ R.map (shiftEntry (nextOffset R z.start_dir - B.header_offset))) := by
    rw [hfl2]; simp
  obtain ⟨z21, hrem21, hfl21, hsd21, hmo21, hfo21, hwr21, hfp21⟩ :=
    remove_name_char z2 A P
      (Q ++ R.map (shiftEntry (nextOffset R z.start_dir - B.header_offset)))
      hsplit2 hsorted2 hbound2 hnn2
      (by rw [hmo2]; exact hmode) (by rw [hfo2]; exact hfp) (by rw [hwr2]; exact hw)
  have hszA2 : nextOffset
        (Q ++ R.map (shiftEntry (nextOffset R z.start_dir - B.header_offset))) z2.start_dir
      - A.header_offset
      = nextOffset (Q ++ B :: R) z.start_dir - A.header_offset := by
    rw [hsd2]
    cases Q with
    | nil =>
      have hx := nextOffset_map_shift R
        (nextOffset R z.start_dir - B.header_offset) z.start_dir
      show nextOffset (R.map (shiftEntry (nextOffset R z.start_dir - B.header_offset)))
          (z.start_dir - (nextOffset R z.start_dir - B.header_offset)) - A.header_offset
        = B.header_offset - A.header_offset
      rw [hx]
      omega
    | cons q Q' => rfl
  rw [hszA2] at hfl21 hsd21 hfp21
  rw [hsd2] at hsd21 hfp21
  -- ===== assemble =====
  refine ⟨z1, z12, z2, z21, hrem1, hrem12, hrem2, hrem21, ?_, ?_, ?_⟩
  · -- entry lists agree
    rw [hfl12, hfl21, map_shift_shift, List.map_append, map_shift_shift,
      Nat.add_comm (nextOffset R z.start_dir - B.header_offset)
        (nextOffset (Q ++ B :: R) z.start_dir - A.header_offset),
      List.append_assoc]
  · -- directory starts agree
    rw [hsd12, hsd21]
    omega
  · -- byte streams agree below the final directory start
    intro i hi
    rw [hsd12] at hi
    rw [hfp12 i, hfp21 i, hfp1 (i + (nextOffset R z.start_dir - B.header_offset)), hfp1 i,
      hfp2 (i + (nextOffset (Q ++ B :: R) z.start_dir - A.header_offset)), hfp2 i]
    simp only [shiftEntry]
    exact compaction_comm z.fp A.header_offset B.header_offset
      (nextOffset (Q ++ B :: R) z.start_dir - A.header_offset)
      (nextOffset R z.start_dir - B.header_offset) z.start_dir hABl hBB i hi

/-- C5: removing two distinct members in either order (by name) from a
valid duplicate-free container yields final containers with identical
entry lists (same names and offsets), identical directory starts, and
identical bytes everywhere below the final directory start — i.e. the same
resulting archive. -/
theorem C5_order_independence (z : ZipState) (A B : Entry)
    (hv : ValidZip z) (hnn : NodupNames z)
    (hA : A ∈ z.filelist) (hB : B ∈ z.filelist) (hABname : A.filename ≠ B.filename)
    (hmode : z.mode = "a") (hfp : z.fpOpen = true) (hw : z.writing = false) :
    ∃ z1 zAB z2 zBA,
      RemovableZipfile.remove z (.name A.filename) = .ok z1 ∧
      RemovableZipfile.remove z1 (.name B.filename) = .ok zAB ∧
      RemovableZipfile.remove z (.name B.filename) = .ok z2 ∧
      RemovableZipfile.remove z2 (.name A.filename) = .ok zBA ∧
      zAB.filelist = zBA.filelist ∧ zAB.start_dir = zBA.start_dir ∧
      (∀ i, i < zAB.start_dir → zAB.fp i = zBA.fp i) := by
  obtain ⟨P0, T, hsplitA⟩ := List.append_of_mem hA
  have hBA : B ≠ A := fun h => hABname (by rw [h])
  have hBmem' : B ∈ P0 ∨ B ∈ T := by
    rw [hsplitA] at hB
    rcases List.mem_append.mp hB with h | h
    · exact Or.inl h
    · rcases List.mem_cons.mp h with h2 | h2
      · exact absurd h2 hBA
      · exact Or.inr h2
  rcases hBmem' with hBP | hBT
  · -- B sits before A: apply the ordered lemma with the roles swapped
    obtain ⟨P1, P2, hP0⟩ := List.append_of_mem hBP
    have hsplit' : z.filelist = P1 ++ B :: (P2 ++ A :: T) := by
      rw [hsplitA, hP0]; simp
    obtain ⟨w1, wAB, w2, wBA, h1, h2, h3, h4, h5, h6, h7⟩ :=
      remove_two_ordered z B A P1 P2 T hsplit' hv hnn hmode hfp hw
    refine ⟨w2, wBA, w1, wAB, h3, h4, h1, h2, h5.symm, h6.symm, ?_⟩
    intro i hi
    rw [← h6] at hi
    exact (h7 i hi).symm
  · -- A sits before B
    obtain ⟨Q, R, hT⟩ := List.append_of_mem hBT
    have hsplit' : z.filelist = P0 ++ A :: (Q ++ B :: R) := by rw [hsplitA, hT]
    exact remove_two_ordered z A B P0 Q R hsplit' hv hnn hmode hfp hw

/-- C5 witness: order independence of removing `keep.txt` and
`JndiLookup.class` from the concrete container `zSmall`. -/
theorem C5_witness :
    ∃ z1 zAB z2 zBA,
      RemovableZipfile.remove zSmall (.name "keep.txt") = .ok z1 ∧
      RemovableZipfile.remove z1 (.name "JndiLookup.class") = .ok zAB ∧
      RemovableZipfile.remove zSmall (.name "JndiLookup.class") = .ok z2 ∧
      RemovableZipfile.remove z2 (.name "keep.txt") = .ok zBA ∧
      zAB.filelist = zBA.filelist ∧ zAB.start_dir = zBA.start_dir ∧
      (∀ i, i < zAB.start_dir → zAB.fp i = zBA.fp i) :=
  C5_order_independence zSmall ⟨"keep.txt", 0⟩ ⟨"JndiLookup.class", 30⟩
    ⟨chain'_of_sortedLtB (by decide), by decide⟩ (by decide) (by decide) (by decide)
    (by decide) rfl rfl rfl

/-! ## Scanner claims -/

/-- In scan-only mode the single-file branch never invokes the remover. -/
theorem scanFile_scan_only (p : String) (d : FileData) (ic cbr : Bool)
    (confirm : String → String → Bool) :
    (scanFile p d ic true cbr confirm).2 = [] := by
  unfold scanFile
  by_cases h1 : (!(endsWithStr p ".jar") || (ic && endsWithStr (lowerStr p) ".jar")) = true
  · rw [if_pos h1]
  · rw [if_neg h1]
    by_cases h2 : (!d.isZip) = true
    · rw [if_pos h2]
    · rw [if_neg h2]
      simp

/-- C7: in removal mode (`scan_only = false`) on a directory tree, the
Member Remover is *never* invoked — the recursive call
`find_log4j(fpath)` at line 96 drops the `scan_only` and
`confirm_before_removing` arguments, so every archive reached through the
directory walk is scanned with the default `scan_only = True`.  First
conjunct: for every directory input in removal mode the removal list is
empty.  Second conjunct: the concrete failing input — a directory holding
`a.jar` with entry `JndiLookup.class`, removal mode, no confirmation —
yields the vulnerable finding but performs no removal. -/
theorem C7_directory_mode_never_removes :
    (∀ (fuel : Nat) (name : String) (children : List FSTree) (path : String)
        (ic cbr : Bool) (confirm : String → String → Bool),
      (find_log4j fuel (.dir name children) path ic false cbr confirm).2 = []) ∧
    find_log4j 5 (.dir "d" [.file "a.jar" ⟨true, ["JndiLookup.class"]⟩])
        "d" false false false (fun _ _ => true)
      = (["d/a.jar:JndiLookup.class"], []) := by
  constructor
  · intro fuel name children path ic cbr confirm
    show (walkDir fuel path children).flatMap
        (fun it => (scanFile it.1 it.2.2 false true true confirm).2) = []
    induction walkDir fuel path children with
    | nil => rfl
    | cons x xs ih =>
      show (scanFile x.1 x.2.2 false true true confirm).2
          ++ xs.flatMap (fun it => (scanFile it.1 it.2.2 false true true confirm).2) = []
      rw [scanFile_scan_only, ih]
      rfl
  · decide

/-- C8 (counterexample): the claim's own scenario — a directory with one
plain file and one archive whose entry name matches — yields *two*
findings when the plain file's raw name contains the keyword, and the
first finding is the plain file's bare path (no `:<entryName>` part), not
an `<archivePath>:<entryName>` pair. -/
theorem C8_counterexample :
    (find_log4j 5
        (.dir "d" [.file "jndilookup.txt" ⟨false, []⟩,
                   .file "a.jar" ⟨true, ["JndiLookup.class"]⟩])
        "d" false true true (fun _ _ => true)).1
      = ["d/jndilookup.txt", "d/a.jar:JndiLookup.class"] ∧
    ((find_log4j 5
        (.dir "d" [.file "jndilookup.txt" ⟨false, []⟩,
                   .file "a.jar" ⟨true, ["JndiLookup.class"]⟩])
        "d" false true true (fun _ _ => true)).1).length ≠ 1 := by
  constructor
  · decide
  · decide

/-- C8 (amended): findings produced by scanning *inside* an archive all
have the form `<archivePath>:<entryName>` with the entry taken from that
archive's index; the directory walk additionally yields the bare path of
any file whose raw name contains a keyword case-sensitively; and the
claim's scenario holds provided the plain file's name does not contain a
keyword: exactly one finding, referencing the archive path and entry name. -/
theorem C8_findings_form :
    (∀ (p : String) (d : FileData) (ic so cbr : Bool)
        (confirm : String → String → Bool) (f : String),
      f ∈ (scanFile p d ic so cbr confirm).1 →
        ∃ n ∈ d.entries, f = p ++ ":" ++ n) ∧
    find_log4j 5
        (.dir "d" [.file "notes.txt" ⟨false, []⟩,
                   .file "a.jar" ⟨true, ["JndiLookup.class"]⟩])
        "d" false true true (fun _ _ => true)
      = (["d/a.jar:JndiLookup.class"], []) := by
  constructor
  · intro p d ic so cbr confirm f hf
    unfold scanFile at hf
    by_cases h1 : (!(endsWithStr p ".jar") || (ic && endsWithStr (lowerStr p) ".jar")) = true
    · rw [if_pos h1] at hf
      simp at hf
    · rw [if_neg h1] at hf
      by_cases h2 : (!d.isZip) = true
      · rw [if_pos h2] at hf
        simp at hf
      · rw [if_neg h2] at hf
        simp only [List.mem_flatMap, List.mem_filterMap] at hf
        obtain ⟨n, hn, kw, _, hsome⟩ := hf
        by_cases hc : containsSub (lowerStr n) kw = true
        · rw [if_pos hc] at hsome
          exact ⟨n, hn, (Option.some_inj.mp hsome).symm⟩
        · rw [if_neg hc] at hsome
          cases hsome
  · decide

/-- C8 witness: the general form statement applied to the concrete finding
of `a.jar`. -/
theorem C8_witness :
    ∃ n ∈ (⟨true, ["JndiLookup.class"]⟩ : FileData).entries,
      "a.jar:JndiLookup.class" = "a.jar" ++ ":" ++ n :=
  C8_findings_form.1 "a.jar" ⟨true, ["JndiLookup.class"]⟩ false true true
    (fun _ _ => true) "a.jar:JndiLookup.class" (by decide)

/-- C9 (counterexample): a file whose contents carry a valid ZIP magic and
whose index holds a matching entry, but whose name does not end in
`.jar`, is never opened: the scanner reports nothing for it. -/
theorem C9_counterexample :
    (⟨true, ["JndiLookup.class"]⟩ : FileData).isZip = true ∧
    scanFile "x.zip" ⟨true, ["JndiLookup.class"]⟩ false true true (fun _ _ => true)
      = ([], []) := by
  constructor
  · rfl
  · decide

/-- C9 (amended): the archive decision is gated by the name suffix first
and the magic probe second (with the default `ignore_case = false`): a
file not ending in `.jar` is never probed or opened; a `.jar` file
failing the magic probe is skipped; a `.jar` file passing the probe is
opened and every entry name is tested case-insensitively against the
signature set. -/
theorem C9_suffix_gates_probe :
    (∀ (p : String) (d : FileData) (so cbr : Bool) (confirm : String → String → Bool),
      endsWithStr p ".jar" = false →
        scanFile p d false so cbr confirm = ([], [])) ∧
    (∀ (p : String) (d : FileData) (so cbr : Bool) (confirm : String → String → Bool),
      endsWithStr p ".jar" = true → d.isZip = false →
        scanFile p d false so cbr confirm = ([], [])) ∧
    (∀ (p : String) (d : FileData) (cbr : Bool) (confirm : String → String → Bool),
      endsWithStr p ".jar" = true → d.isZip = true →
        (scanFile p d false true cbr confirm).1
          = d.entries.flatMap (fun n => keywords.filterMap (fun kw =>
              if containsSub (lowerStr n) kw then some (p ++ ":" ++ n) else none))) := by
  refine ⟨?_, ?_, ?_⟩
  · intro p d so cbr confirm h
    unfold scanFile
    rw [if_pos (by rw [h]; rfl)]
  · intro p d so cbr confirm h1 h2
    unfold scanFile
    rw [if_neg (by rw [h1]; simp), if_pos (by rw [h2]; rfl)]
  · intro p d cbr confirm h1 h2
    unfold scanFile
    rw [if_neg (by rw [h1]; simp), if_neg (by rw [h2]; simp)]

/-- C9 witness: the three amended conclusions at concrete files — a
ZIP-magic `x.zip` is skipped, a non-magic `bad.jar` is skipped, and a
magic `a.jar` yields its matching entry as a finding. -/
theorem C9_witness :
    scanFile "x.zip" ⟨true, ["JndiLookup.class"]⟩ false true true (fun _ _ => true)
        = ([], []) ∧
    scanFile "bad.jar" ⟨false, ["JndiLookup.class"]⟩ false true true (fun _ _ => true)
        = ([], []) ∧
    (scanFile "a.jar" ⟨true, ["JndiLookup.class"]⟩ false true true (fun _ _ => true)).1
        = ["a.jar:JndiLookup.class"] :=
  ⟨C9_suffix_gates_probe.1 "x.zip" ⟨true, ["JndiLookup.class"]⟩ true true
      (fun _ _ => true) (by decide),
   C9_suffix_gates_probe.2.1 "bad.jar" ⟨false, ["JndiLookup.class"]⟩ true true
      (fun _ _ => true) (by decide) rfl,
   by
    rw [C9_suffix_gates_probe.2.2 "a.jar" ⟨true, ["JndiLookup.class"]⟩ true
      (fun _ _ => true) (by decide) rfl]
    decide⟩
